import Mathlib

/-!
Verification of the geometry kernel and tracer of the Circular-Inversions-Animation
repository (src/Inversions.py), as a shallow embedding over the real numbers.

Points are modelled as pairs of reals (the source stores 3D numpy vectors whose
z component is always 0 and never read by the geometry code, so we keep the two
coordinates that are actually used).  Python float arithmetic is modelled by exact
real arithmetic; the one place where IEEE semantics matters (division by a zero
norm inside `circ_inverse_of`, which yields +inf and is then clamped by `min`)
is modelled by an explicit branch, documented at the definition.
-/

namespace Inversions

/-- A 2D point, the two coordinates of the numpy vectors used by the source. -/
abbrev Point : Type := ℝ × ℝ

/-- Embedding of `MathUtils.distance`: Euclidean distance `linalg.norm(a - b)`. -/
noncomputable def distance (a b : Point) : ℝ :=
  Real.sqrt ((a.1 - b.1) ^ 2 + (a.2 - b.2) ^ 2)

/-- The literal `9223372036854775807` used by the source to cap the inversion
scale factor (`scale = min(scale, 9223372036854775807)`). -/
def CAP : ℝ := 9223372036854775807

/-- Embedding of `MathUtils.circ_inverse_of`.  The source computes
`adj_direction = p - c`, `p_norm = norm(adj_direction)`,
`prim_norm = r ** 2 / p_norm`, `scale = prim_norm / p_norm`,
`scale = min(scale, 9223372036854775807)` and returns `c + scale * adj_direction`.
When `p_norm = 0` and `r > 0`, IEEE float division gives `prim_norm = +inf` and
`scale = +inf` (numpy emits a warning but no exception), and Python `min` then
picks the cap; since Lean real division by zero returns `0` instead of `+inf`,
that branch is made explicit so the embedded `scale` agrees with the float
computation.  (For `r = 0` together with `p = c` the float code produces NaN;
no claim touches that corner and the embedding is only used with `r > 0`.) -/
noncomputable def circ_inverse_of (p c : Point) (r : ℝ) : Point :=
  let adj1 : ℝ := p.1 - c.1
  let adj2 : ℝ := p.2 - c.2
  let p_norm : ℝ := Real.sqrt (adj1 ^ 2 + adj2 ^ 2)
  let scale : ℝ := if p_norm = 0 then CAP else min (r ^ 2 / p_norm / p_norm) CAP
  (c.1 + scale * adj1, c.2 + scale * adj2)

/-- The denominator `s = 2 * (a * b + b * c + c * a) - (a * a + b * b + c * c)`
computed inside `MathUtils.define_circle`, extracted so that theorems can speak
about it directly.  Here `a`, `b`, `c` are the squared side lengths exactly as
the source computes them. -/
def define_circle_denom (p1 p2 p3 : Point) : ℝ :=
  let c : ℝ := (p1.1 - p2.1) ^ 2 + (p1.2 - p2.2) ^ 2
  let a : ℝ := (p2.1 - p3.1) ^ 2 + (p2.2 - p3.2) ^ 2
  let b : ℝ := (p3.1 - p1.1) ^ 2 + (p3.2 - p1.2) ^ 2
  2 * (a * b + b * c + c * a) - (a * a + b * b + c * c)

/-- Embedding of `MathUtils.define_circle`: circumcircle of three points via the
closed form of the source.  `c`, `a`, `b` are squared side lengths, `s` the
denominator, `(px, py)` the barycentric combination divided by `s`, and the
radius is `ar * br * cr / sqrt ((ar+br+cr) * (-ar+br+cr) * (ar-br+cr) * (ar+br-cr))`
with `ar = a ** 0.5` and so on.  The source has no degeneracy check whatsoever:
on collinear input it divides by `s = 0` (IEEE: NaN center, infinite radius;
Lean real division by zero returns 0). -/
noncomputable def define_circle (p1 p2 p3 : Point) : Point × ℝ :=
  let x1 : ℝ := p1.1
  let y1 : ℝ := p1.2
  let x2 : ℝ := p2.1
  let y2 : ℝ := p2.2
  let x3 : ℝ := p3.1
  let y3 : ℝ := p3.2
  let c : ℝ := (x1 - x2) ^ 2 + (y1 - y2) ^ 2
  let a : ℝ := (x2 - x3) ^ 2 + (y2 - y3) ^ 2
  let b : ℝ := (x3 - x1) ^ 2 + (y3 - y1) ^ 2
  let s : ℝ := 2 * (a * b + b * c + c * a) - (a * a + b * b + c * c)
  let px : ℝ := (a * (b + c - a) * x1 + b * (c + a - b) * x2 + c * (a + b - c) * x3) / s
  let py : ℝ := (a * (b + c - a) * y1 + b * (c + a - b) * y2 + c * (a + b - c) * y3) / s
  let ar : ℝ := Real.sqrt a
  let br : ℝ := Real.sqrt b
  let cr : ℝ := Real.sqrt c
  let r : ℝ := ar * br * cr /
    Real.sqrt ((ar + br + cr) * (-ar + br + cr) * (ar - br + cr) * (ar + br - cr))
  ((px, py), r)

/-- The two-argument arctangent `math.atan2 y x`, modelled as the argument of the
complex number `x + y*i`; Mathlib's `Complex.arg` is defined by the same
quadrant case split as `atan2` and agrees with it at every real input (the
only divergences of C `atan2` concern IEEE signed zeros, which do not exist
in `ℝ`). -/
noncomputable def atan2 (y x : ℝ) : ℝ :=
  Complex.arg ⟨x, y⟩

/-- Embedding of `MathUtils.circle_angle`:
`math.atan2(p[1] - center[1], p[0] - center[0])`. -/
noncomputable def circle_angle (p center : Point) : ℝ :=
  atan2 (p.2 - center.2) (p.1 - center.1)

/-- The data handed to the Animation Host `Arc` drawable by the tracer:
radius, arc center, start angle and angular sweep, in the order of the call
`ma.Arc(radius=..., arc_center=..., start_angle=..., angle=..., color=...)`. -/
structure Arc : Type where
  radius : ℝ
  arc_center : Point
  start_angle : ℝ
  angle : ℝ

/-- Embedding of the per-frame closure `inverted_arc_updater` inside
`CircularInversionIntro.trace_circle`: the Arc it rebuilds every frame, as a
function of the current Dependent Point position `a_prime` and of the fitted
circumcircle `center` and `radius` captured by the closure.  The source passes
`start_angle = circle_angle(A_prime, center)` and
`angle = PI - circle_angle(A_prime, center)`. -/
noncomputable def inverted_arc_updater (a_prime center : Point) (radius : ℝ) : Arc :=
  ⟨radius, center, circle_angle a_prime center,
    Real.pi - circle_angle a_prime center⟩

/-- Embedding of the endpoint choice in the Connector Line updater inside
`CircularInversionIntro.add_updaters`:
`max(A, A_prime, key = distance(x, origin))`.  Python `max` keeps the first
argument on ties and replaces it only on a strictly greater key, so the result
is `a_prime` exactly when its distance to `origin` is strictly larger. -/
noncomputable def connector_endpoint (a a_prime origin : Point) : Point :=
  if distance a origin < distance a_prime origin then a_prime else a

/-- Embedding of the Connector Line rebuilt every frame by the updater in
`CircularInversionIntro.add_updaters`: a segment from the origin (the Inversion
Circle center) to the chosen endpoint, as the pair (first endpoint, second
endpoint) of `ma.Line(origin, max(A, A_prime, key=...))`. -/
noncomputable def connector_line (a a_prime origin : Point) : Point × Point :=
  (origin, connector_endpoint a a_prime origin)

/-- The static data computed by `CircularInversionIntro.trace_circle` before the
trace starts: the three sampled boundary points of the Source Circle, the
circumcircle fitted to their inverses, and the full circle the Image Curve is
replaced with after the trace (`ma.Circle(radius=radius)` shifted to `center`). -/
structure TraceResult : Type where
  sample0 : Point
  sample1 : Point
  sample2 : Point
  fitted : Point × ℝ
  finalCircle : Point × ℝ

/-- Embedding of the geometry computed by `CircularInversionIntro.trace_circle`
for a Source Circle of radius `r` centered at `c`, with the Inversion Circle
centered at `origin` with radius `R`.  The source samples
`circle.center + RIGHT * r`, `circle.center + UP * r`, `circle.center + DOWN * r`,
inverts each through the Inversion Circle, fits `define_circle` to the three
images once (before any animation plays), and after the trace replaces the arc
by a full circle with that same center and radius. -/
noncomputable def trace_circle (r : ℝ) (c origin : Point) (R : ℝ) : TraceResult :=
  let p0 : Point := (c.1 + r, c.2)
  let p1 : Point := (c.1, c.2 + r)
  let p2 : Point := (c.1, c.2 - r)
  let fit : Point × ℝ :=
    define_circle (circ_inverse_of p0 origin R) (circ_inverse_of p1 origin R)
      (circ_inverse_of p2 origin R)
  ⟨p0, p1, p2, fit, fit⟩

/-! ### Helper lemmas about the embedded kernel -/

/-- Unfolded form of `circ_inverse_of`. -/
lemma circ_inverse_of_def (p c : Point) (r : ℝ) :
    circ_inverse_of p c r =
      ((c.1 + (if Real.sqrt ((p.1 - c.1) ^ 2 + (p.2 - c.2) ^ 2) = 0 then CAP
          else min (r ^ 2 / Real.sqrt ((p.1 - c.1) ^ 2 + (p.2 - c.2) ^ 2) /
            Real.sqrt ((p.1 - c.1) ^ 2 + (p.2 - c.2) ^ 2)) CAP) * (p.1 - c.1),
        c.2 + (if Real.sqrt ((p.1 - c.1) ^ 2 + (p.2 - c.2) ^ 2) = 0 then CAP
          else min (r ^ 2 / Real.sqrt ((p.1 - c.1) ^ 2 + (p.2 - c.2) ^ 2) /
            Real.sqrt ((p.1 - c.1) ^ 2 + (p.2 - c.2) ^ 2)) CAP) * (p.2 - c.2)) : Point) :=
  rfl

/-- Two points differ exactly when the squared norm of their difference is positive. -/
lemma ne_iff_norm2_pos (p c : Point) :
    p ≠ c ↔ 0 < (p.1 - c.1) ^ 2 + (p.2 - c.2) ^ 2 := by
  constructor
  · intro h
    rcases lt_or_eq_of_le (by positivity : (0 : ℝ) ≤ (p.1 - c.1) ^ 2 + (p.2 - c.2) ^ 2)
      with h1 | h1
    · exact h1
    · exfalso
      apply h
      have e1 : p.1 = c.1 := by nlinarith [sq_nonneg (p.1 - c.1), sq_nonneg (p.2 - c.2)]
      have e2 : p.2 = c.2 := by nlinarith [sq_nonneg (p.1 - c.1), sq_nonneg (p.2 - c.2)]
      exact Prod.ext e1 e2
  · intro h he
    rw [he] at h
    simp at h

/-- When the saturation bound does not bite, `circ_inverse_of` is the textbook
inversion with scale factor `r ^ 2` over the squared norm. -/
lemma circ_inverse_of_uncapped (p c : Point) (r : ℝ) (hp : p ≠ c)
    (hcap : r ^ 2 / ((p.1 - c.1) ^ 2 + (p.2 - c.2) ^ 2) ≤ CAP) :
    circ_inverse_of p c r =
      (c.1 + r ^ 2 / ((p.1 - c.1) ^ 2 + (p.2 - c.2) ^ 2) * (p.1 - c.1),
       c.2 + r ^ 2 / ((p.1 - c.1) ^ 2 + (p.2 - c.2) ^ 2) * (p.2 - c.2)) := by
  have hpos : 0 < (p.1 - c.1) ^ 2 + (p.2 - c.2) ^ 2 := (ne_iff_norm2_pos p c).mp hp
  have hsq : Real.sqrt ((p.1 - c.1) ^ 2 + (p.2 - c.2) ^ 2) ≠ 0 :=
    ne_of_gt (Real.sqrt_pos.mpr hpos)
  have hx : r ^ 2 / Real.sqrt ((p.1 - c.1) ^ 2 + (p.2 - c.2) ^ 2) /
      Real.sqrt ((p.1 - c.1) ^ 2 + (p.2 - c.2) ^ 2) =
      r ^ 2 / ((p.1 - c.1) ^ 2 + (p.2 - c.2) ^ 2) := by
    rw [div_div, Real.mul_self_sqrt hpos.le]
  rw [circ_inverse_of_def, if_neg hsq, hx, min_eq_left hcap]

/-- When the saturation bound bites, the scale factor of `circ_inverse_of` is the cap. -/
lemma circ_inverse_of_capped (p c : Point) (r : ℝ) (hp : p ≠ c)
    (hcap : CAP ≤ r ^ 2 / ((p.1 - c.1) ^ 2 + (p.2 - c.2) ^ 2)) :
    circ_inverse_of p c r =
      (c.1 + CAP * (p.1 - c.1), c.2 + CAP * (p.2 - c.2)) := by
  have hpos : 0 < (p.1 - c.1) ^ 2 + (p.2 - c.2) ^ 2 := (ne_iff_norm2_pos p c).mp hp
  have hsq : Real.sqrt ((p.1 - c.1) ^ 2 + (p.2 - c.2) ^ 2) ≠ 0 :=
    ne_of_gt (Real.sqrt_pos.mpr hpos)
  have hx : r ^ 2 / Real.sqrt ((p.1 - c.1) ^ 2 + (p.2 - c.2) ^ 2) /
      Real.sqrt ((p.1 - c.1) ^ 2 + (p.2 - c.2) ^ 2) =
      r ^ 2 / ((p.1 - c.1) ^ 2 + (p.2 - c.2) ^ 2) := by
    rw [div_div, Real.mul_self_sqrt hpos.le]
  rw [circ_inverse_of_def, if_neg hsq, hx, min_eq_right hcap]

/-- Distance from a point to an offset of itself along a scaled direction. -/
lemma distance_offset (c : Point) (t dx dy : ℝ) (ht : 0 ≤ t) :
    distance c (c.1 + t * dx, c.2 + t * dy) = t * Real.sqrt (dx ^ 2 + dy ^ 2) := by
  unfold distance
  have e : (c.1 - (c.1 + t * dx)) ^ 2 + (c.2 - (c.2 + t * dy)) ^ 2 =
      t ^ 2 * (dx ^ 2 + dy ^ 2) := by ring
  rw [e, Real.sqrt_mul (sq_nonneg t), Real.sqrt_sq ht]

/-- Distance from the origin to a point on the nonnegative x axis. -/
lemma distance_origin_x (x : ℝ) (hx : 0 ≤ x) :
    distance ((0 : ℝ), (0 : ℝ)) (x, 0) = x := by
  unfold distance
  have e : ((0 : ℝ) - x) ^ 2 + ((0 : ℝ) - 0) ^ 2 = x ^ 2 := by ring
  rw [e, Real.sqrt_sq hx]

/-! ### Claim theorems -/

/-- C1 (amended): for every point `p` distinct from the center `c` and every
radius `r > 0` such that the uncapped scale factor `r ^ 2 / |p - c| ^ 2` does
not exceed the saturation bound `9223372036854775807`, the inversion satisfies
`distance c p * distance c (circ_inverse_of p c r) = r ^ 2` exactly, and the
result equals `c + (r ^ 2 / n ^ 2) * (p - c)` with `n = distance c p`. -/
theorem circ_inverse_product_identity (p c : Point) (r : ℝ) (hp : p ≠ c) (hr : 0 < r)
    (hcap : r ^ 2 / ((p.1 - c.1) ^ 2 + (p.2 - c.2) ^ 2) ≤ CAP) :
    distance c p * distance c (circ_inverse_of p c r) = r ^ 2 ∧
    circ_inverse_of p c r =
      (c.1 + r ^ 2 / distance c p ^ 2 * (p.1 - c.1),
       c.2 + r ^ 2 / distance c p ^ 2 * (p.2 - c.2)) := by
  have hpos : 0 < (p.1 - c.1) ^ 2 + (p.2 - c.2) ^ 2 := (ne_iff_norm2_pos p c).mp hp
  have hd2 : distance c p ^ 2 = (p.1 - c.1) ^ 2 + (p.2 - c.2) ^ 2 := by
    unfold distance
    rw [Real.sq_sqrt (by positivity)]
    ring
  rw [circ_inverse_of_uncapped p c r hp hcap]
  constructor
  · have h1 : distance c p = Real.sqrt ((p.1 - c.1) ^ 2 + (p.2 - c.2) ^ 2) := by
      unfold distance
      congr 1
      ring
    have hscale : 0 ≤ r ^ 2 / ((p.1 - c.1) ^ 2 + (p.2 - c.2) ^ 2) := by positivity
    rw [distance_offset c _ _ _ hscale, h1]
    have hms := Real.mul_self_sqrt hpos.le
    calc Real.sqrt ((p.1 - c.1) ^ 2 + (p.2 - c.2) ^ 2) *
          (r ^ 2 / ((p.1 - c.1) ^ 2 + (p.2 - c.2) ^ 2) *
            Real.sqrt ((p.1 - c.1) ^ 2 + (p.2 - c.2) ^ 2)) =
        Real.sqrt ((p.1 - c.1) ^ 2 + (p.2 - c.2) ^ 2) *
          Real.sqrt ((p.1 - c.1) ^ 2 + (p.2 - c.2) ^ 2) *
          (r ^ 2 / ((p.1 - c.1) ^ 2 + (p.2 - c.2) ^ 2)) := by ring
      _ = ((p.1 - c.1) ^ 2 + (p.2 - c.2) ^ 2) *
          (r ^ 2 / ((p.1 - c.1) ^ 2 + (p.2 - c.2) ^ 2)) := by rw [hms]
      _ = r ^ 2 := by
          rw [mul_comm, div_mul_cancel₀ _ (ne_of_gt hpos)]
  · rw [hd2]

/-- Witness for C1 at `p = (1, 0)`, `c = (0, 0)`, `r = 2`. -/
theorem circ_inverse_product_identity_witness :
    (((1 : ℝ), (0 : ℝ)) : Point) ≠ ((0 : ℝ), (0 : ℝ)) ∧ (0 : ℝ) < 2 ∧
      (2 : ℝ) ^ 2 / (((1 : ℝ) - 0) ^ 2 + ((0 : ℝ) - 0) ^ 2) ≤ CAP ∧
      distance ((0 : ℝ), (0 : ℝ)) ((1 : ℝ), (0 : ℝ)) *
        distance ((0 : ℝ), (0 : ℝ))
          (circ_inverse_of ((1 : ℝ), (0 : ℝ)) ((0 : ℝ), (0 : ℝ)) 2) = 2 ^ 2 :=
  have h1 : (((1 : ℝ), (0 : ℝ)) : Point) ≠ ((0 : ℝ), (0 : ℝ)) := by
    intro h
    exact one_ne_zero (congrArg Prod.fst h)
  have h2 : (0 : ℝ) < 2 := by norm_num
  have h3 : (2 : ℝ) ^ 2 / (((1 : ℝ) - 0) ^ 2 + ((0 : ℝ) - 0) ^ 2) ≤ CAP := by
    norm_num [CAP]
  ⟨h1, h2, h3, (circ_inverse_product_identity (1, 0) (0, 0) 2 h1 h2 h3).1⟩

/-- Counterexample to C1 as stated: for `p = (10 ^ (-10), 0)`, `c = (0, 0)`,
`r = 2`, the scale factor `4 * 10 ^ 20` is clamped to the cap, and the distance
product is `CAP / 10 ^ 20 < 1`, not `r ^ 2 = 4`. -/
theorem circ_inverse_product_identity_cex :
    distance ((0 : ℝ), (0 : ℝ)) ((1 / 10 ^ 10 : ℝ), (0 : ℝ)) *
      distance ((0 : ℝ), (0 : ℝ))
        (circ_inverse_of ((1 / 10 ^ 10 : ℝ), (0 : ℝ)) ((0 : ℝ), (0 : ℝ)) 2) ≠ 2 ^ 2 := by
  have hp : (((1 / 10 ^ 10 : ℝ), (0 : ℝ)) : Point) ≠ ((0 : ℝ), (0 : ℝ)) := by
    intro h
    have h1 := congrArg Prod.fst h
    norm_num at h1
  have hcap : CAP ≤ (2 : ℝ) ^ 2 /
      (((1 / 10 ^ 10 : ℝ) - 0) ^ 2 + ((0 : ℝ) - 0) ^ 2) := by
    norm_num [CAP]
  have h1 : circ_inverse_of ((1 / 10 ^ 10 : ℝ), (0 : ℝ)) ((0 : ℝ), (0 : ℝ)) 2 =
      ((CAP / 10 ^ 10 : ℝ), (0 : ℝ)) := by
    rw [circ_inverse_of_capped _ _ _ hp hcap]
    refine Prod.ext ?_ ?_ <;> norm_num [CAP]
  rw [h1, distance_origin_x (1 / 10 ^ 10) (by norm_num),
    distance_origin_x (CAP / 10 ^ 10) (by norm_num [CAP])]
  norm_num [CAP]

/-- C10: for every point `p` distinct from the center `c` and every radius
`r > 0`, the result of `circ_inverse_of p c r` lies on the ray from `c` through
`p`: its offset from `c` is a nonnegative scalar multiple of `p - c`, because
the (possibly capped) scale factor is always nonnegative. -/
theorem circ_inverse_ray (p c : Point) (r : ℝ) (hp : p ≠ c) (hr : 0 < r) :
    ∃ t : ℝ, 0 ≤ t ∧
      (circ_inverse_of p c r).1 - c.1 = t * (p.1 - c.1) ∧
      (circ_inverse_of p c r).2 - c.2 = t * (p.2 - c.2) := by
  have hcapnn : (0 : ℝ) ≤ CAP := by norm_num [CAP]
  rw [circ_inverse_of_def]
  by_cases h : Real.sqrt ((p.1 - c.1) ^ 2 + (p.2 - c.2) ^ 2) = 0
  · rw [if_pos h]
    exact ⟨CAP, hcapnn, by ring, by ring⟩
  · rw [if_neg h]
    refine ⟨min (r ^ 2 / Real.sqrt ((p.1 - c.1) ^ 2 + (p.2 - c.2) ^ 2) /
        Real.sqrt ((p.1 - c.1) ^ 2 + (p.2 - c.2) ^ 2)) CAP, ?_, by ring, by ring⟩
    have hsn : 0 ≤ Real.sqrt ((p.1 - c.1) ^ 2 + (p.2 - c.2) ^ 2) := Real.sqrt_nonneg _
    exact le_min (by positivity) hcapnn

/-- Witness for C10 at `p = (1, 0)`, `c = (0, 0)`, `r = 2`. -/
theorem circ_inverse_ray_witness :
    (((1 : ℝ), (0 : ℝ)) : Point) ≠ ((0 : ℝ), (0 : ℝ)) ∧ (0 : ℝ) < 2 ∧
      ∃ t : ℝ, 0 ≤ t ∧
        (circ_inverse_of ((1 : ℝ), (0 : ℝ)) ((0 : ℝ), (0 : ℝ)) 2).1 - 0 = t * (1 - 0) ∧
        (circ_inverse_of ((1 : ℝ), (0 : ℝ)) ((0 : ℝ), (0 : ℝ)) 2).2 - 0 = t * (0 - 0) :=
  have h1 : (((1 : ℝ), (0 : ℝ)) : Point) ≠ ((0 : ℝ), (0 : ℝ)) := by
    intro h
    exact one_ne_zero (congrArg Prod.fst h)
  have h2 : (0 : ℝ) < 2 := by norm_num
  ⟨h1, h2, circ_inverse_ray (1, 0) (0, 0) 2 h1 h2⟩

/-- C6 (amended): when `circ_inverse_of` is called with `p` equal to the center
`c` and `r > 0`, it does not fail and produces no infinite coordinate; the scale
factor is the capped bound `9223372036854775807`, but since the direction vector
`p - c` is zero the returned point is the center `c` itself — not a far-away
saturated point. -/
theorem circ_inverse_center (c : Point) (r : ℝ) (hr : 0 < r) :
    circ_inverse_of c c r = c := by
  rw [circ_inverse_of_def]
  have h0 : Real.sqrt ((c.1 - c.1) ^ 2 + (c.2 - c.2) ^ 2) = 0 := by
    simp
  simp [h0]

/-- Witness for C6 at `c = (0, 0)`, `r = 2`. -/
theorem circ_inverse_center_witness :
    (0 : ℝ) < 2 ∧
      circ_inverse_of ((0 : ℝ), (0 : ℝ)) ((0 : ℝ), (0 : ℝ)) 2 = ((0 : ℝ), (0 : ℝ)) :=
  ⟨by norm_num, circ_inverse_center ((0 : ℝ), (0 : ℝ)) 2 (by norm_num)⟩

/-- Counterexample to C6 as stated: at `p = c = (0, 0)`, `r = 2` the function
returns the center itself, at distance `0` from the center — not a very large
saturated point far away. -/
theorem circ_inverse_center_cex :
    circ_inverse_of ((0 : ℝ), (0 : ℝ)) ((0 : ℝ), (0 : ℝ)) 2 = ((0 : ℝ), (0 : ℝ)) ∧
      distance ((0 : ℝ), (0 : ℝ))
        (circ_inverse_of ((0 : ℝ), (0 : ℝ)) ((0 : ℝ), (0 : ℝ)) 2) = 0 := by
  have h1 : circ_inverse_of ((0 : ℝ), (0 : ℝ)) ((0 : ℝ), (0 : ℝ)) 2 =
      ((0 : ℝ), (0 : ℝ)) := by
    rw [circ_inverse_of_def]
    norm_num
  refine ⟨h1, ?_⟩
  rw [h1]
  exact distance_origin_x 0 le_rfl

/-- C5 (amended): inversion is an involution whenever neither application
saturates: for `p ≠ c`, `r > 0` with `r ^ 2 / |p - c| ^ 2 ≤ CAP` and
`|p - c| ^ 2 / r ^ 2 ≤ CAP`, applying `circ_inverse_of` twice returns `p`. -/
theorem circ_inverse_involution (p c : Point) (r : ℝ) (hp : p ≠ c) (hr : 0 < r)
    (hcap1 : r ^ 2 / ((p.1 - c.1) ^ 2 + (p.2 - c.2) ^ 2) ≤ CAP)
    (hcap2 : ((p.1 - c.1) ^ 2 + (p.2 - c.2) ^ 2) / r ^ 2 ≤ CAP) :
    circ_inverse_of (circ_inverse_of p c r) c r = p := by
  have hpos : 0 < (p.1 - c.1) ^ 2 + (p.2 - c.2) ^ 2 := (ne_iff_norm2_pos p c).mp hp
  have hrne : r ≠ 0 := ne_of_gt hr
  rw [circ_inverse_of_uncapped p c r hp hcap1]
  set n2 : ℝ := (p.1 - c.1) ^ 2 + (p.2 - c.2) ^ 2 with hn2
  set q : Point := (c.1 + r ^ 2 / n2 * (p.1 - c.1), c.2 + r ^ 2 / n2 * (p.2 - c.2))
    with hq
  have hq1 : q.1 - c.1 = r ^ 2 / n2 * (p.1 - c.1) := by
    rw [hq]
    show c.1 + r ^ 2 / n2 * (p.1 - c.1) - c.1 = r ^ 2 / n2 * (p.1 - c.1)
    ring
  have hq2 : q.2 - c.2 = r ^ 2 / n2 * (p.2 - c.2) := by
    rw [hq]
    show c.2 + r ^ 2 / n2 * (p.2 - c.2) - c.2 = r ^ 2 / n2 * (p.2 - c.2)
    ring
  have hqn2 : (q.1 - c.1) ^ 2 + (q.2 - c.2) ^ 2 = r ^ 4 / n2 := by
    rw [hq1, hq2]
    field_simp
    rw [hn2]
    ring
  have hqne : q ≠ c := by
    rw [ne_iff_norm2_pos, hqn2]
    positivity
  have hcapq : r ^ 2 / ((q.1 - c.1) ^ 2 + (q.2 - c.2) ^ 2) ≤ CAP := by
    rw [hqn2]
    have e : r ^ 2 / (r ^ 4 / n2) = n2 / r ^ 2 := by
      field_simp
      ring
    rw [e]
    exact hcap2
  rw [circ_inverse_of_uncapped q c r hqne hcapq, hqn2, hq1, hq2]
  have e1 : c.1 + r ^ 2 / (r ^ 4 / n2) * (r ^ 2 / n2 * (p.1 - c.1)) = p.1 := by
    field_simp
    ring
  have e2 : c.2 + r ^ 2 / (r ^ 4 / n2) * (r ^ 2 / n2 * (p.2 - c.2)) = p.2 := by
    field_simp
    ring
  exact Prod.ext e1 e2

/-- Witness for C5 at `p = (1, 0)`, `c = (0, 0)`, `r = 2`. -/
theorem circ_inverse_involution_witness :
    (((1 : ℝ), (0 : ℝ)) : Point) ≠ ((0 : ℝ), (0 : ℝ)) ∧ (0 : ℝ) < 2 ∧
      (2 : ℝ) ^ 2 / (((1 : ℝ) - 0) ^ 2 + ((0 : ℝ) - 0) ^ 2) ≤ CAP ∧
      (((1 : ℝ) - 0) ^ 2 + ((0 : ℝ) - 0) ^ 2) / (2 : ℝ) ^ 2 ≤ CAP ∧
      circ_inverse_of (circ_inverse_of ((1 : ℝ), (0 : ℝ)) ((0 : ℝ), (0 : ℝ)) 2)
        ((0 : ℝ), (0 : ℝ)) 2 = ((1 : ℝ), (0 : ℝ)) :=
  have h1 : (((1 : ℝ), (0 : ℝ)) : Point) ≠ ((0 : ℝ), (0 : ℝ)) := by
    intro h
    exact one_ne_zero (congrArg Prod.fst h)
  have h2 : (0 : ℝ) < 2 := by norm_num
  have h3 : (2 : ℝ) ^ 2 / (((1 : ℝ) - 0) ^ 2 + ((0 : ℝ) - 0) ^ 2) ≤ CAP := by
    norm_num [CAP]
  have h4 : (((1 : ℝ) - 0) ^ 2 + ((0 : ℝ) - 0) ^ 2) / (2 : ℝ) ^ 2 ≤ CAP := by
    norm_num [CAP]
  ⟨h1, h2, h3, h4, circ_inverse_involution (1, 0) (0, 0) 2 h1 h2 h3 h4⟩

/-- Counterexample to C5 as stated: for `p = (10 ^ (-12), 0)`, `c = (0, 0)`,
`r = 2`, the first application saturates at the cap, and the second application
returns `(4 * 10 ^ 12 / CAP, 0)`, which differs from `p`. -/
theorem circ_inverse_involution_cex :
    circ_inverse_of (circ_inverse_of ((1 / 10 ^ 12 : ℝ), (0 : ℝ)) ((0 : ℝ), (0 : ℝ)) 2)
      ((0 : ℝ), (0 : ℝ)) 2 ≠ ((1 / 10 ^ 12 : ℝ), (0 : ℝ)) := by
  have hp : (((1 / 10 ^ 12 : ℝ), (0 : ℝ)) : Point) ≠ ((0 : ℝ), (0 : ℝ)) := by
    intro h
    have h1 := congrArg Prod.fst h
    norm_num at h1
  have hcap : CAP ≤ (2 : ℝ) ^ 2 /
      (((1 / 10 ^ 12 : ℝ) - 0) ^ 2 + ((0 : ℝ) - 0) ^ 2) := by
    norm_num [CAP]
  have h1 : circ_inverse_of ((1 / 10 ^ 12 : ℝ), (0 : ℝ)) ((0 : ℝ), (0 : ℝ)) 2 =
      ((CAP / 10 ^ 12 : ℝ), (0 : ℝ)) := by
    rw [circ_inverse_of_capped _ _ _ hp hcap]
    refine Prod.ext ?_ ?_ <;> norm_num [CAP]
  have hp2 : (((CAP / 10 ^ 12 : ℝ), (0 : ℝ)) : Point) ≠ ((0 : ℝ), (0 : ℝ)) := by
    intro h
    have h2 := congrArg Prod.fst h
    norm_num [CAP] at h2
  have hcap2 : (2 : ℝ) ^ 2 /
      (((CAP / 10 ^ 12 : ℝ) - 0) ^ 2 + ((0 : ℝ) - 0) ^ 2) ≤ CAP := by
    norm_num [CAP]
  have h2 : circ_inverse_of ((CAP / 10 ^ 12 : ℝ), (0 : ℝ)) ((0 : ℝ), (0 : ℝ)) 2 =
      ((4 * 10 ^ 12 / CAP : ℝ), (0 : ℝ)) := by
    rw [circ_inverse_of_uncapped _ _ _ hp2 hcap2]
    refine Prod.ext ?_ ?_ <;> norm_num [CAP]
  rw [h1, h2]
  intro h
  have h3 := congrArg Prod.fst h
  norm_num [CAP] at h3

/-- C2 (evaluation at the failing input): on the collinear triple
`(0,0), (1,0), (2,0)` the denominator `s` computed by `define_circle` is exactly
`0`, yet the function performs no detection at all and unconditionally divides
by it.  Under the total real division of the model those divisions return `0`,
so the call returns `((0, 0), 0)`; under IEEE float arithmetic they return NaN
center coordinates and an infinite radius.  Either way no DegenerateTriple
condition is signalled: the function has no error channel whatsoever. -/
theorem define_circle_degenerate_eval :
    define_circle_denom ((0 : ℝ), (0 : ℝ)) ((1 : ℝ), (0 : ℝ)) ((2 : ℝ), (0 : ℝ)) = 0 ∧
    define_circle ((0 : ℝ), (0 : ℝ)) ((1 : ℝ), (0 : ℝ)) ((2 : ℝ), (0 : ℝ)) =
      ((((0 : ℝ), (0 : ℝ)) : Point), (0 : ℝ)) := by
  have h4 : Real.sqrt 4 = 2 := by
    rw [show (4 : ℝ) = 2 ^ 2 by norm_num, Real.sqrt_sq (by norm_num : (0 : ℝ) ≤ 2)]
  constructor
  · norm_num [define_circle_denom]
  · norm_num [define_circle, h4]

/-- Counterexample to C4 as stated: with the Dependent Point at polar angle `π`
about the fitted center (point `(-1, 0)` about `(0, 0)`), the Arc rebuilt by the
updater has angular sweep `π - π = 0`, not `π`. -/
theorem inverted_arc_sweep_cex :
    (inverted_arc_updater ((-1 : ℝ), (0 : ℝ)) ((0 : ℝ), (0 : ℝ)) 1).angle ≠ Real.pi := by
  have harg : circle_angle ((-1 : ℝ), (0 : ℝ)) ((0 : ℝ), (0 : ℝ)) = Real.pi := by
    have hz : ((⟨(-1 : ℝ) - 0, (0 : ℝ) - 0⟩ : ℂ)) = (-1 : ℂ) := by
      refine Complex.ext ?_ ?_ <;> simp
    show Complex.arg ⟨(-1 : ℝ) - 0, (0 : ℝ) - 0⟩ = Real.pi
    rw [hz, Complex.arg_neg_one]
  show Real.pi - circle_angle ((-1 : ℝ), (0 : ℝ)) ((0 : ℝ), (0 : ℝ)) ≠ Real.pi
  rw [harg, sub_self]
  exact Ne.symm Real.pi_ne_zero

/-- C4 (amended): on every frame the updater rebuilds the Image Curve as an Arc
on the fitted circumcircle (same center and radius), whose start angle is the
polar angle `θ` of the Dependent Point about that center and whose angular
sweep is `π - θ` rather than a constant `π`: the arc always ends at the fixed
angle `π`, and the sweep equals `π` exactly when `θ = 0`. -/
theorem inverted_arc_updater_spec (a_prime center : Point) (radius : ℝ) :
    (inverted_arc_updater a_prime center radius).arc_center = center ∧
    (inverted_arc_updater a_prime center radius).radius = radius ∧
    (inverted_arc_updater a_prime center radius).start_angle =
      circle_angle a_prime center ∧
    (inverted_arc_updater a_prime center radius).start_angle +
      (inverted_arc_updater a_prime center radius).angle = Real.pi ∧
    ((inverted_arc_updater a_prime center radius).angle = Real.pi ↔
      circle_angle a_prime center = 0) := by
  refine ⟨rfl, rfl, rfl, ?_, ?_⟩
  · show circle_angle a_prime center + (Real.pi - circle_angle a_prime center) = Real.pi
    ring
  · show Real.pi - circle_angle a_prime center = Real.pi ↔
      circle_angle a_prime center = 0
    exact sub_eq_self

/-- C7: the tracer samples exactly the three boundary points of the Source
Circle at angular offsets `0`, `π/2` and `3π/2` from its center, computed once;
fits one circumcircle to the three inverted samples; every frame of the partial
arc keeps that same fitted center and radius regardless of where the Dependent
Point currently is; and the final full circle installed after the trace has
exactly the fitted center and radius. -/
theorem trace_circle_structure (r : ℝ) (c origin : Point) (R : ℝ) :
    (trace_circle r c origin R).sample0 =
      (c.1 + r * Real.cos 0, c.2 + r * Real.sin 0) ∧
    (trace_circle r c origin R).sample1 =
      (c.1 + r * Real.cos (Real.pi / 2), c.2 + r * Real.sin (Real.pi / 2)) ∧
    (trace_circle r c origin R).sample2 =
      (c.1 + r * Real.cos (3 * Real.pi / 2), c.2 + r * Real.sin (3 * Real.pi / 2)) ∧
    (trace_circle r c origin R).fitted =
      define_circle (circ_inverse_of (trace_circle r c origin R).sample0 origin R)
        (circ_inverse_of (trace_circle r c origin R).sample1 origin R)
        (circ_inverse_of (trace_circle r c origin R).sample2 origin R) ∧
    (∀ a_prime : Point,
      (inverted_arc_updater a_prime (trace_circle r c origin R).fitted.1
          (trace_circle r c origin R).fitted.2).arc_center =
        (trace_circle r c origin R).fitted.1 ∧
      (inverted_arc_updater a_prime (trace_circle r c origin R).fitted.1
          (trace_circle r c origin R).fitted.2).radius =
        (trace_circle r c origin R).fitted.2) ∧
    (trace_circle r c origin R).finalCircle = (trace_circle r c origin R).fitted := by
  refine ⟨?_, ?_, ?_, rfl, fun a_prime => ⟨rfl, rfl⟩, rfl⟩
  · show ((c.1 + r, c.2) : Point) = (c.1 + r * Real.cos 0, c.2 + r * Real.sin 0)
    rw [Real.cos_zero, Real.sin_zero]
    refine Prod.ext ?_ ?_ <;> ring
  · show ((c.1, c.2 + r) : Point) =
      (c.1 + r * Real.cos (Real.pi / 2), c.2 + r * Real.sin (Real.pi / 2))
    rw [Real.cos_pi_div_two, Real.sin_pi_div_two]
    refine Prod.ext ?_ ?_ <;> ring
  · show ((c.1, c.2 - r) : Point) =
      (c.1 + r * Real.cos (3 * Real.pi / 2), c.2 + r * Real.sin (3 * Real.pi / 2))
    have h32 : (3 : ℝ) * Real.pi / 2 = Real.pi + Real.pi / 2 := by ring
    rw [h32, Real.cos_add, Real.sin_add, Real.cos_pi, Real.sin_pi,
      Real.cos_pi_div_two, Real.sin_pi_div_two]
    refine Prod.ext ?_ ?_ <;> ring

/-- C8: for every point `p` distinct from `center`, `circle_angle p center`
returns an angle in `[-π, π]` (the two-argument arctangent) such that
`p - center = distance p center * (cos θ, sin θ)`. -/
theorem circle_angle_correct (p center : Point) (h : p ≠ center) :
    -Real.pi ≤ circle_angle p center ∧ circle_angle p center ≤ Real.pi ∧
    p.1 - center.1 = distance p center * Real.cos (circle_angle p center) ∧
    p.2 - center.2 = distance p center * Real.sin (circle_angle p center) := by
  set z : ℂ := ⟨p.1 - center.1, p.2 - center.2⟩ with hz
  have hzne : z ≠ 0 := by
    intro h0
    apply h
    have hre := congrArg Complex.re h0
    have him := congrArg Complex.im h0
    simp [hz] at hre him
    exact Prod.ext (by linarith) (by linarith)
  have habsne : Complex.abs z ≠ 0 := by
    simpa using hzne
  have habs : Complex.abs z = distance p center := by
    rw [Complex.abs_apply, Complex.normSq_apply]
    unfold distance
    congr 1
    simp [hz]
    ring
  have hangle : circle_angle p center = Complex.arg z := rfl
  refine ⟨?_, ?_, ?_, ?_⟩
  · rw [hangle]
    exact (Complex.neg_pi_lt_arg z).le
  · rw [hangle]
    exact Complex.arg_le_pi z
  · rw [hangle, Complex.cos_arg hzne, ← habs]
    have e : Complex.abs z * (z.re / Complex.abs z) = z.re := by
      field_simp
    rw [e]
  · rw [hangle, Complex.sin_arg, ← habs]
    have e : Complex.abs z * (z.im / Complex.abs z) = z.im := by
      field_simp
    rw [e]

/-- Witness for C8 at `p = (1, 0)`, `center = (0, 0)`. -/
theorem circle_angle_correct_witness :
    (((1 : ℝ), (0 : ℝ)) : Point) ≠ ((0 : ℝ), (0 : ℝ)) ∧
      (-Real.pi ≤ circle_angle ((1 : ℝ), (0 : ℝ)) ((0 : ℝ), (0 : ℝ)) ∧
        circle_angle ((1 : ℝ), (0 : ℝ)) ((0 : ℝ), (0 : ℝ)) ≤ Real.pi ∧
        (1 : ℝ) - 0 = distance ((1 : ℝ), (0 : ℝ)) ((0 : ℝ), (0 : ℝ)) *
          Real.cos (circle_angle ((1 : ℝ), (0 : ℝ)) ((0 : ℝ), (0 : ℝ))) ∧
        (0 : ℝ) - 0 = distance ((1 : ℝ), (0 : ℝ)) ((0 : ℝ), (0 : ℝ)) *
          Real.sin (circle_angle ((1 : ℝ), (0 : ℝ)) ((0 : ℝ), (0 : ℝ)))) :=
  have h1 : (((1 : ℝ), (0 : ℝ)) : Point) ≠ ((0 : ℝ), (0 : ℝ)) := by
    intro h
    exact one_ne_zero (congrArg Prod.fst h)
  ⟨h1, circle_angle_correct (1, 0) (0, 0) h1⟩

/-- C9: on every frame the Connector Line runs from the Inversion Circle center
to whichever of the Independent Point and the Dependent Point is currently at
the greater Euclidean distance from that center. -/
theorem connector_line_correct (a a_prime origin : Point) :
    (connector_line a a_prime origin).1 = origin ∧
    ((connector_line a a_prime origin).2 = a ∨
      (connector_line a a_prime origin).2 = a_prime) ∧
    distance (connector_line a a_prime origin).2 origin =
      max (distance a origin) (distance a_prime origin) := by
  refine ⟨rfl, ?_, ?_⟩
  · unfold connector_line connector_endpoint
    by_cases h : distance a origin < distance a_prime origin
    · rw [if_pos h]
      exact Or.inr rfl
    · rw [if_neg h]
      exact Or.inl rfl
  · unfold connector_line connector_endpoint
    by_cases h : distance a origin < distance a_prime origin
    · rw [if_pos h]
      show distance a_prime origin = max (distance a origin) (distance a_prime origin)
      exact (max_eq_right h.le).symm
    · rw [if_neg h]
      show distance a origin = max (distance a origin) (distance a_prime origin)
      exact (max_eq_left (not_lt.mp h)).symm

set_option maxHeartbeats 1600000 in
/-- The polynomial identity at the heart of `define_circle`: with the squared
side lengths `a b c`, the denominator `s` and the center numerators `nx ny` as
the source computes them, every vertex is at cleared squared distance
`s * (a * b * c)` from the scaled center `(nx, ny)`. -/
lemma circum_dist_sq (x1 y1 x2 y2 x3 y3 a b c s nx ny : ℝ)
    (ha : a = (x2 - x3) ^ 2 + (y2 - y3) ^ 2)
    (hb : b = (x3 - x1) ^ 2 + (y3 - y1) ^ 2)
    (hc : c = (x1 - x2) ^ 2 + (y1 - y2) ^ 2)
    (hs : s = 2 * (a * b + b * c + c * a) - (a * a + b * b + c * c))
    (hnx : nx = a * (b + c - a) * x1 + b * (c + a - b) * x2 + c * (a + b - c) * x3)
    (hny : ny = a * (b + c - a) * y1 + b * (c + a - b) * y2 + c * (a + b - c) * y3) :
    (nx - s * x1) ^ 2 + (ny - s * y1) ^ 2 = s * (a * b * c) ∧
    (nx - s * x2) ^ 2 + (ny - s * y2) ^ 2 = s * (a * b * c) ∧
    (nx - s * x3) ^ 2 + (ny - s * y3) ^ 2 = s * (a * b * c) := by
  subst ha hb hc hs hnx hny
  refine ⟨by ring, by ring, by ring⟩

set_option maxHeartbeats 1600000 in
/-- C3: for every non-collinear triple (nonzero cross product of the edge
vectors), `define_circle` returns a center equidistant from the three input
points, the common distance being the returned radius, and the radius is
`abc / sqrt ((a+b+c) * (-a+b+c) * (a-b+c) * (a+b-c))` in the side lengths. -/
theorem define_circle_correct (p1 p2 p3 : Point)
    (h : (p2.1 - p1.1) * (p3.2 - p1.2) - (p3.1 - p1.1) * (p2.2 - p1.2) ≠ 0) :
    distance (define_circle p1 p2 p3).1 p1 = (define_circle p1 p2 p3).2 ∧
    distance (define_circle p1 p2 p3).1 p2 = (define_circle p1 p2 p3).2 ∧
    distance (define_circle p1 p2 p3).1 p3 = (define_circle p1 p2 p3).2 ∧
    (define_circle p1 p2 p3).2 =
      distance p2 p3 * distance p3 p1 * distance p1 p2 /
        Real.sqrt ((distance p2 p3 + distance p3 p1 + distance p1 p2) *
          (-distance p2 p3 + distance p3 p1 + distance p1 p2) *
          (distance p2 p3 - distance p3 p1 + distance p1 p2) *
          (distance p2 p3 + distance p3 p1 - distance p1 p2)) := by
  set aa : ℝ := (p2.1 - p3.1) ^ 2 + (p2.2 - p3.2) ^ 2 with haa
  set bb : ℝ := (p3.1 - p1.1) ^ 2 + (p3.2 - p1.2) ^ 2 with hbb
  set cc : ℝ := (p1.1 - p2.1) ^ 2 + (p1.2 - p2.2) ^ 2 with hcc
  set s : ℝ := 2 * (aa * bb + bb * cc + cc * aa) - (aa * aa + bb * bb + cc * cc) with hs
  set nx : ℝ := aa * (bb + cc - aa) * p1.1 + bb * (cc + aa - bb) * p2.1 +
    cc * (aa + bb - cc) * p3.1 with hnx
  set ny : ℝ := aa * (bb + cc - aa) * p1.2 + bb * (cc + aa - bb) * p2.2 +
    cc * (aa + bb - cc) * p3.2 with hny
  set sa : ℝ := Real.sqrt aa with hsa
  set sb : ℝ := Real.sqrt bb with hsb
  set sc : ℝ := Real.sqrt cc with hsc
  have haa0 : 0 ≤ aa := by
    rw [haa]
    positivity
  have hbb0 : 0 ≤ bb := by
    rw [hbb]
    positivity
  have hcc0 : 0 ≤ cc := by
    rw [hcc]
    positivity
  have hs4 : s = 4 * ((p2.1 - p1.1) * (p3.2 - p1.2) - (p3.1 - p1.1) * (p2.2 - p1.2)) ^ 2 := by
    rw [hs, haa, hbb, hcc]
    ring
  have hspos : 0 < s := by
    rw [hs4]
    have h2 : 0 < ((p2.1 - p1.1) * (p3.2 - p1.2) - (p3.1 - p1.1) * (p2.2 - p1.2)) ^ 2 :=
      pow_two_pos_of_ne_zero h
    linarith
  have hsne : s ≠ 0 := ne_of_gt hspos
  have key := circum_dist_sq p1.1 p1.2 p2.1 p2.2 p3.1 p3.2 aa bb cc s nx ny
    haa hbb hcc hs hnx hny
  have hd : define_circle p1 p2 p3 =
      ((nx / s, ny / s),
        sa * sb * sc /
          Real.sqrt ((sa + sb + sc) * (-sa + sb + sc) * (sa - sb + sc) * (sa + sb - sc))) := by
    rw [hnx, hny, hs, hsa, hsb, hsc, haa, hbb, hcc]
    rfl
  have hda1 : distance (nx / s, ny / s) p1 = Real.sqrt (aa * bb * cc / s) := by
    show Real.sqrt ((nx / s - p1.1) ^ 2 + (ny / s - p1.2) ^ 2) = Real.sqrt (aa * bb * cc / s)
    have e1 : nx / s - p1.1 = (nx - s * p1.1) / s := by
      rw [sub_div, mul_div_cancel_left₀ _ hsne]
    have e2 : ny / s - p1.2 = (ny - s * p1.2) / s := by
      rw [sub_div, mul_div_cancel_left₀ _ hsne]
    rw [e1, e2, div_pow, div_pow, div_add_div_same, key.1, pow_two,
      mul_div_mul_left _ _ hsne]
  have hda2 : distance (nx / s, ny / s) p2 = Real.sqrt (aa * bb * cc / s) := by
    show Real.sqrt ((nx / s - p2.1) ^ 2 + (ny / s - p2.2) ^ 2) = Real.sqrt (aa * bb * cc / s)
    have e1 : nx / s - p2.1 = (nx - s * p2.1) / s := by
      rw [sub_div, mul_div_cancel_left₀ _ hsne]
    have e2 : ny / s - p2.2 = (ny - s * p2.2) / s := by
      rw [sub_div, mul_div_cancel_left₀ _ hsne]
    rw [e1, e2, div_pow, div_pow, div_add_div_same, key.2.1, pow_two,
      mul_div_mul_left _ _ hsne]
  have hda3 : distance (nx / s, ny / s) p3 = Real.sqrt (aa * bb * cc / s) := by
    show Real.sqrt ((nx / s - p3.1) ^ 2 + (ny / s - p3.2) ^ 2) = Real.sqrt (aa * bb * cc / s)
    have e1 : nx / s - p3.1 = (nx - s * p3.1) / s := by
      rw [sub_div, mul_div_cancel_left₀ _ hsne]
    have e2 : ny / s - p3.2 = (ny - s * p3.2) / s := by
      rw [sub_div, mul_div_cancel_left₀ _ hsne]
    rw [e1, e2, div_pow, div_pow, div_add_div_same, key.2.2, pow_two,
      mul_div_mul_left _ _ hsne]
  have ea : sa ^ 2 = aa := by
    rw [hsa]
    exact Real.sq_sqrt haa0
  have eb : sb ^ 2 = bb := by
    rw [hsb]
    exact Real.sq_sqrt hbb0
  have ec : sc ^ 2 = cc := by
    rw [hsc]
    exact Real.sq_sqrt hcc0
  have hheron : (sa + sb + sc) * (-sa + sb + sc) * (sa - sb + sc) * (sa + sb - sc) = s := by
    rw [hs, ← ea, ← eb, ← ec]
    ring
  have habc0 : 0 ≤ aa * bb * cc := mul_nonneg (mul_nonneg haa0 hbb0) hcc0
  have hnum : Real.sqrt (aa * bb * cc) = sa * sb * sc := by
    rw [Real.sqrt_mul (mul_nonneg haa0 hbb0) cc, Real.sqrt_mul haa0 bb, ← hsa, ← hsb, ← hsc]
  have hRs : sa * sb * sc /
      Real.sqrt ((sa + sb + sc) * (-sa + sb + sc) * (sa - sb + sc) * (sa + sb - sc)) =
      Real.sqrt (aa * bb * cc / s) := by
    rw [hheron, Real.sqrt_div habc0 s, hnum]
  have hdist23 : distance p2 p3 = sa := by
    unfold distance
    rw [hsa, haa]
  have hdist31 : distance p3 p1 = sb := by
    unfold distance
    rw [hsb, hbb]
  have hdist12 : distance p1 p2 = sc := by
    unfold distance
    rw [hsc, hcc]
  rw [hd]
  refine ⟨?_, ?_, ?_, ?_⟩
  · show distance (nx / s, ny / s) p1 = sa * sb * sc /
        Real.sqrt ((sa + sb + sc) * (-sa + sb + sc) * (sa - sb + sc) * (sa + sb - sc))
    rw [hda1, hRs]
  · show distance (nx / s, ny / s) p2 = sa * sb * sc /
        Real.sqrt ((sa + sb + sc) * (-sa + sb + sc) * (sa - sb + sc) * (sa + sb - sc))
    rw [hda2, hRs]
  · show distance (nx / s, ny / s) p3 = sa * sb * sc /
        Real.sqrt ((sa + sb + sc) * (-sa + sb + sc) * (sa - sb + sc) * (sa + sb - sc))
    rw [hda3, hRs]
  · show sa * sb * sc /
        Real.sqrt ((sa + sb + sc) * (-sa + sb + sc) * (sa - sb + sc) * (sa + sb - sc)) =
      distance p2 p3 * distance p3 p1 * distance p1 p2 /
        Real.sqrt ((distance p2 p3 + distance p3 p1 + distance p1 p2) *
          (-distance p2 p3 + distance p3 p1 + distance p1 p2) *
          (distance p2 p3 - distance p3 p1 + distance p1 p2) *
          (distance p2 p3 + distance p3 p1 - distance p1 p2))
    rw [hdist23, hdist31, hdist12]

/-- Witness for C3 at the non-collinear triple `(0,0), (1,0), (0,1)`. -/
theorem define_circle_correct_witness :
    (((1 : ℝ) - 0) * ((1 : ℝ) - 0) - ((0 : ℝ) - 0) * ((0 : ℝ) - 0) ≠ 0) ∧
      distance (define_circle ((0 : ℝ), (0 : ℝ)) ((1 : ℝ), (0 : ℝ)) ((0 : ℝ), (1 : ℝ))).1
          ((0 : ℝ), (0 : ℝ)) =
        (define_circle ((0 : ℝ), (0 : ℝ)) ((1 : ℝ), (0 : ℝ)) ((0 : ℝ), (1 : ℝ))).2 :=
  have h1 : ((1 : ℝ) - 0) * ((1 : ℝ) - 0) - ((0 : ℝ) - 0) * ((0 : ℝ) - 0) ≠ 0 := by
    norm_num
  ⟨h1, (define_circle_correct ((0 : ℝ), (0 : ℝ)) ((1 : ℝ), (0 : ℝ)) ((0 : ℝ), (1 : ℝ)) h1).1⟩

end Inversions
